import Mathlib

/-!
# Verification of the MIDI channel splitter core

A shallow embedding of `split_midi.py`: the event classifier
(`MidiSplitter._process_midi_events`), the per-channel partition logic of
`MidiSplitter._write_channel_file`, the MIDI-extension check
(`MidiSplitter.is_midi_file`), the per-channel write/convert/remove loop of
`MidiSplitter.process_csv_file`, and the CSV dialect the module reads and
writes (`csv.reader(f, skipinitialspace=True)` /
`csv.writer(f, quoting=csv.QUOTE_MINIMAL)` over files opened with
universal-newline reading and `newline=''` writing).

Rows are `List String`; channels are `Int` (Python's unbounded `int`);
fallible parsing is `Option`/`Except`.
-/

namespace SplitMidi

/-- A CSV row: the ordered list of textual fields of one event record. -/
abbrev Row := List String

/-- `MIDI_EVENTS`: the five channel-carrying event-type labels
(constant at `split_midi.py:27`). -/
def MIDI_EVENTS : List String :=
  ["Note_on_c", "Note_off_c", "Control_c", "Program_c", "Pitch_bend_c"]

/-- `META_EVENT_CHANNEL = -1`, the global-row marker (`split_midi.py:35`). -/
def META_EVENT_CHANNEL : Int := -1

/-- `MidiSplitter.is_midi_event`: membership of the event-type label in
`MIDI_EVENTS` (`split_midi.py:134`). -/
def is_midi_event (event_type : String) : Bool :=
  MIDI_EVENTS.contains event_type

/-! ## Python `int()` on strings

`_process_midi_events` calls `int(row[3])`.  Python's `int` on a string
strips surrounding whitespace, accepts one optional sign, and then a
non-empty digit run in which single underscores may separate digits.
(The model covers ASCII whitespace and ASCII digits, the only characters
the claims exercise.)  Failure (`ValueError`) is `none`. -/

/-- ASCII whitespace stripped by Python's `int()`. -/
def isPyWs (c : Char) : Bool :=
  c == ' ' || c == '\t' || c == '\n' || c == '\r' || c == '\x0b' || c == '\x0c'

/-- Digit-run accumulator: continues after a leading digit, allowing single
underscores strictly between digits (Python's numeric-literal grouping). -/
def digitsCore : List Char → Nat → Option Nat
  | [], acc => some acc
  | c :: rest, acc =>
    if c.isDigit then digitsCore rest (acc * 10 + (c.toNat - 48))
    else if c == '_' then
      match rest with
      | d :: rest2 =>
        if d.isDigit then digitsCore rest2 (acc * 10 + (d.toNat - 48)) else none
      | [] => none
    else none

/-- Parse a non-empty digit run (with underscore grouping) as a `Nat`. -/
def parseDigits : List Char → Option Nat
  | [] => none
  | c :: rest => if c.isDigit then digitsCore rest (c.toNat - 48) else none

/-- Python `int(s)` for base-10 string input: strip whitespace, optional
sign, digit run; `none` models `ValueError`. -/
def pyInt (s : String) : Option Int :=
  let cs := ((s.data.dropWhile isPyWs).reverse.dropWhile isPyWs).reverse
  match cs with
  | '+' :: rest => (parseDigits rest).map Int.ofNat
  | '-' :: rest => (parseDigits rest).map (fun n => -(n : Int))
  | rest => (parseDigits rest).map Int.ofNat

/-! ## The event classifier: `MidiSplitter._process_midi_events` -/

/-- The loop body of `_process_midi_events` (`split_midi.py:169-180`),
threading the `channels` and `midi_events` accumulators exactly as the
Python `for` loop does (both lists grow by appending at the end).  An
unparseable channel field raises `ValueError` in Python; here the
offending field string is returned as the error. -/
def processGo : List Row → List Int → List (Int × Row) →
    Except String (List Int × List (Int × Row))
  | [], channels, midi_events => .ok (channels, midi_events)
  | row :: rest, channels, midi_events =>
    if row.length < 3 then
      processGo rest channels (midi_events ++ [(META_EVENT_CHANNEL, row)])
    else
      -- `event_type = row[2]` inlined
      if is_midi_event (row.getD 2 "") && decide (3 < row.length) then
        match pyInt (row.getD 3 "") with
        | none => .error (row.getD 3 "")
        | some channel =>
          processGo rest
            (if channel ∈ channels then channels else channels ++ [channel])
            (midi_events ++ [(channel, row)])
      else
        processGo rest channels (midi_events ++ [(META_EVENT_CHANNEL, row)])

/-- `MidiSplitter._process_midi_events` (`split_midi.py:155-182`): returns
the discovered channel list and the classified `(marker, row)` sequence,
or the first unparseable channel field. -/
def process_midi_events (rows : List Row) :
    Except String (List Int × List (Int × Row)) :=
  processGo rows [] []

/-- The row selection of `MidiSplitter._write_channel_file`
(`split_midi.py:197-199`): the classified events whose marker equals the
requested channel or the global marker, in original order. -/
def partitionEvents (channel : Int) (midi_events : List (Int × Row)) :
    List (Int × Row) :=
  midi_events.filter (fun event => event.1 == channel || event.1 == META_EVENT_CHANNEL)

/-- The rows `_write_channel_file` emits for a channel, in emission order. -/
def channelPartition (channel : Int) (midi_events : List (Int × Row)) : List Row :=
  (partitionEvents channel midi_events).map Prod.snd

/-! ## The MIDI-extension check: `MidiSplitter.is_midi_file` -/

/-- Python `str.lower()` restricted to ASCII (the extensions checked are
ASCII). -/
def pyLower (s : String) : String :=
  ⟨s.data.map Char.toLower⟩

/-- `MIDI_EXTENSIONS = ('.mid', '.midi')` (`split_midi.py:26`). -/
def MIDI_EXTENSIONS : List String := [".mid", ".midi"]

/-- `MidiSplitter.is_midi_file` (`split_midi.py:66-75`):
`file_path.lower().endswith(MIDI_EXTENSIONS)` — Python's `str.endswith`
with a tuple succeeds when the string ends with any tuple member. -/
def is_midi_file (file_path : String) : Bool :=
  MIDI_EXTENSIONS.any (fun ext => ext.data.isSuffixOf (pyLower file_path).data)

/-- Spec-side notion for C9: `p` ends with `ext` case-insensitively,
compared character by character after ASCII lowercasing both sides. -/
def endsWithCI (p ext : String) : Bool :=
  (ext.data.map Char.toLower).isSuffixOf (p.data.map Char.toLower)

/-! ## Instance state of `MidiSplitter`

`MidiSplitter.__init__` (`split_midi.py:54-64`) stores four attributes.
`_process_midi_events` neither reads nor writes any of them (its only
non-local reference, `is_midi_event`, is a static method over the module
constant `MIDI_EVENTS`), so its stateful embedding threads the instance
unchanged and computes the result from the rows alone. -/

/-- The mutable attributes a `MidiSplitter` instance carries
(`split_midi.py:61-64`). -/
structure SplitterState where
  remove_csv : Option Bool
  input_file : Option String
  csv_file : Option String
  output_dir : Option String

/-- `_process_midi_events` as a method: the receiver passes through
untouched and contributes nothing to the result (the method body contains
no reference to `self` besides the static `is_midi_event`). -/
def process_midi_events_method (self : SplitterState) (rows : List Row) :
    SplitterState × Except String (List Int × List (Int × Row)) :=
  (self, process_midi_events rows)

/-! ## The per-channel write/convert/remove loop

`MidiSplitter.process_csv_file` (`split_midi.py:202-234`) reads the rows,
creates the output directory, classifies, then for each discovered
channel: writes `channel_<c>.csv`, converts it with `csvmidi`
(`convert_csv_to_midi`, which raises `MidiSplitterError` on failure), and
— only when `remove_csv` is set — removes the CSV.  An exception from the
converter propagates, aborting the loop.  The filesystem effects are
modelled as an action trace; the external converter's outcome is an
oracle `convertOk`. -/

/-- One observable filesystem action of `process_csv_file`. -/
inductive FsAction where
  | mkdirOut
  | writeCsv (channel : Int)
  | convertCsv (channel : Int)
  | removeCsv (channel : Int)
  deriving DecidableEq, Repr

/-- The `for channel in channels` loop of `process_csv_file`
(`split_midi.py:224-234`): write, convert, optionally remove; a failed
conversion raises, ending the loop with the failing channel reported. -/
def channelLoop (remove_csv : Bool) (convertOk : Int → Bool) :
    List Int → List FsAction × Option Int
  | [] => ([], none)
  | c :: rest =>
    if convertOk c then
      (([.writeCsv c, .convertCsv c] ++ if remove_csv then [.removeCsv c] else [])
        ++ (channelLoop remove_csv convertOk rest).1,
       (channelLoop remove_csv convertOk rest).2)
    else
      ([.writeCsv c, .convertCsv c], some c)

/-- `process_csv_file` after the rows are read: create the output
directory, classify, then run the per-channel loop.  The error component
is the unparseable channel field (left) or the channel whose conversion
failed (right). -/
def process_csv_file_actions (remove_csv : Bool) (convertOk : Int → Bool)
    (rows : List Row) : List FsAction × Option (String ⊕ Int) :=
  match process_midi_events rows with
  | .error e => ([.mkdirOut], some (.inl e))
  | .ok (channels, _) =>
    (.mkdirOut :: (channelLoop remove_csv convertOk channels).1,
     ((channelLoop remove_csv convertOk channels).2).map .inr)

/-! ## Characterizing the classifier loop

`rowMarker`, `channelOf` and `firstOccurrencesFrom` restate the per-row
decisions of the loop so its accumulated outputs can be described
row-by-row; `processGo_ok` is the loop invariant. -/

/-- The marker `_process_midi_events` assigns to one row: `-1` for rows
with fewer than 3 fields or a non-channel event type, the parsed field 3
for channel-carrying rows; `none` when that parse raises. -/
def rowMarker (row : Row) : Option Int :=
  if row.length < 3 then some META_EVENT_CHANNEL
  else if is_midi_event (row.getD 2 "") && decide (3 < row.length) then
    pyInt (row.getD 3 "")
  else some META_EVENT_CHANNEL

/-- The channel a row contributes to the discovered channel list:
`some` exactly for channel-carrying rows whose field 3 parses. -/
def channelOf (row : Row) : Option Int :=
  if row.length < 3 then none
  else if is_midi_event (row.getD 2 "") && decide (3 < row.length) then
    pyInt (row.getD 3 "")
  else none

/-- First-occurrence accumulation of channel numbers over the input rows,
starting from an already-seen list: each newly seen channel is appended
at the end, duplicates are skipped. -/
def firstOccurrencesFrom (seen : List Int) : List Row → List Int
  | [] => seen
  | r :: rest =>
    match channelOf r with
    | some c => firstOccurrencesFrom (if c ∈ seen then seen else seen ++ [c]) rest
    | none => firstOccurrencesFrom seen rest

/-- Concrete input for the C2 witness: a 4-field channel-carrying row, a
3-field channel-carrying row, a 1-field row, and a non-channel meta row. -/
def c2Rows : List Row :=
  [["1", "0", "Control_c", "9"], ["1", "0", "Control_c"], ["1"],
    ["1", "0", "Tempo", "500000"]]

/-- The classified sequence `_process_midi_events` produces on `c2Rows`. -/
def c2Events : List (Int × Row) :=
  [(9, ["1", "0", "Control_c", "9"]), (-1, ["1", "0", "Control_c"]),
    (-1, ["1"]), (-1, ["1", "0", "Tempo", "500000"])]

/-! ## The CSV dialect

`process_csv_file` writes each partition with
`csv.writer(f, quoting=csv.QUOTE_MINIMAL)` over a file opened with
`newline=''` (`split_midi.py:195-199`) and reads input with
`csv.reader(f, skipinitialspace=True)` over a file opened in default
universal-newline text mode (`split_midi.py:213-215`).  The writer and
reader below embed CPython's `_csv` module for the default dialect
(delimiter `,`, quote char `"`, doubled quotes, no escape char,
line terminator `"\r\n"`, non-strict) plus `skipinitialspace=True`,
together with the text-mode newline translation between them.  Fields
containing NUL take the reader's end-of-line transitions, as in CPython;
the writer's behavior on NUL fields (CPython escape handling) is outside
the modelled domain and such fields are excluded by `fieldOk`. -/

/-- Does QUOTE_MINIMAL quote this field?  Exactly when it contains the
delimiter, the quote char, or a line-terminator character. -/
def needsQuote (f : List Char) : Bool :=
  f.any (fun c => c == ',' || c == '"' || c == '\r' || c == '\n')

/-- Double every quote char (the `doublequote=True` convention). -/
def doubleQuotes : List Char → List Char
  | [] => []
  | c :: rest =>
    if c = '"' then '"' :: '"' :: doubleQuotes rest else c :: doubleQuotes rest

/-- One field as the writer emits it: quoted with doubled quote chars
when QUOTE_MINIMAL requires it, verbatim otherwise. -/
def encodeField (f : List Char) : List Char :=
  if needsQuote f then '"' :: (doubleQuotes f ++ ['"']) else f

/-- The fields of one record joined with the delimiter. -/
def writeRowBody : List (List Char) → List Char
  | [] => []
  | f :: rest =>
    encodeField f ++
      match rest with
      | [] => []
      | _ => ',' :: writeRowBody rest

/-- One record before the line terminator: CPython quotes a record that
has fields but an empty joined body (the single-empty-field record) so
it is not read back as an empty line. -/
def writeRowRecord (r : List (List Char)) : List Char :=
  if 0 < r.length ∧ (writeRowBody r).length = 0 then ['"', '"']
  else writeRowBody r

/-- One record as written to the file: record plus the `"\r\n"` line
terminator (the file is opened with `newline=''`, so it reaches the file
untranslated). -/
def writeRow (r : List (List Char)) : List Char :=
  writeRowRecord r ++ ['\r', '\n']

/-- The file content `csv.writer` produces for a row sequence. -/
def writeRows (rs : List Row) : List Char :=
  (rs.map (fun r => writeRow (r.map String.data))).flatten

/-- Universal-newline translation performed by reading the file back in
default text mode: `"\r\n"` and lone `"\r"` both become `"\n"`. -/
def univNewlines : List Char → List Char
  | [] => []
  | [c] => if c = '\r' then ['\n'] else [c]
  | c :: d :: rest =>
    if c = '\r' then
      if d = '\n' then '\n' :: univNewlines rest
      else '\n' :: univNewlines (d :: rest)
    else c :: univNewlines (d :: rest)

/-- Split translated content into the lines file iteration yields: each
line keeps its trailing `'\n'`; a final unterminated line is kept; no
empty trailing line. -/
def splitLinesGo (acc : List Char) : List Char → List (List Char)
  | [] => if acc = [] then [] else [acc.reverse]
  | c :: rest =>
    if c = '\n' then (acc.reverse ++ ['\n']) :: splitLinesGo [] rest
    else splitLinesGo (c :: acc) rest

/-- The lines of translated file content. -/
def splitLines (cs : List Char) : List (List Char) :=
  splitLinesGo [] cs

/-- The reader states of CPython's `_csv` parser. -/
inductive CsvMode where
  | startRecord
  | startField
  | inField
  | inQuotedField
  | quoteInQuotedField
  | eatCrnl
  deriving DecidableEq, Repr

/-- The parser state: mode, current field (reversed), finished fields of
the current record (reversed), and the error flag (CPython raises
`csv.Error`; the flag is sticky). -/
structure CsvState where
  mode : CsvMode
  field : List Char
  fields : List (List Char)
  err : Bool
  deriving Repr

/-- The parser state at the start of a record. -/
def initCsvState : CsvState :=
  ⟨.startRecord, [], [], false⟩

/-- `parse_save_field`: close the current field. -/
def saveField (st : CsvState) : CsvState :=
  { st with field := [], fields := st.field.reverse :: st.fields }

/-- The `START_FIELD` transitions (also reached by fallthrough from
`START_RECORD`): newline ends the record saving an empty field, a quote
char opens a quoted field, a space is skipped (`skipinitialspace`), the
delimiter saves an empty field, anything else starts an unquoted field. -/
def startFieldStep (st : CsvState) (c : Char) : CsvState :=
  if c = '\n' ∨ c = '\r' then { saveField st with mode := .eatCrnl }
  else if c = '"' then { st with mode := .inQuotedField }
  else if c = ' ' then st
  else if c = ',' then { saveField st with mode := .startField }
  else { st with mode := .inField, field := c :: st.field }

/-- The transitions CPython takes at the `'\0'` end-of-line marker. -/
def processEol (st : CsvState) : CsvState :=
  if st.err then st else
  match st.mode with
  | .startRecord => st
  | .startField => { saveField st with mode := .startRecord }
  | .inField => { saveField st with mode := .startRecord }
  | .inQuotedField => st
  | .quoteInQuotedField => { saveField st with mode := .startRecord }
  | .eatCrnl => { st with mode := .startRecord }

/-- `parse_process_char` for one character of line data; a NUL data char
takes the same transitions as the end-of-line marker, as in CPython. -/
def processChar (st : CsvState) (c : Char) : CsvState :=
  if st.err then st
  else if c = '\x00' then processEol st
  else
    match st.mode with
    | .startRecord =>
      if c = '\n' ∨ c = '\r' then { st with mode := .eatCrnl }
      else startFieldStep { st with mode := .startField } c
    | .startField => startFieldStep st c
    | .inField =>
      if c = '\n' ∨ c = '\r' then { saveField st with mode := .eatCrnl }
      else if c = ',' then { saveField st with mode := .startField }
      else { st with field := c :: st.field }
    | .inQuotedField =>
      if c = '"' then { st with mode := .quoteInQuotedField }
      else { st with field := c :: st.field }
    | .quoteInQuotedField =>
      if c = '"' then { st with mode := .inQuotedField, field := c :: st.field }
      else if c = ',' then { saveField st with mode := .startField }
      else if c = '\n' ∨ c = '\r' then { saveField st with mode := .eatCrnl }
      else { st with mode := .inField, field := c :: st.field }
    | .eatCrnl =>
      if c = '\n' ∨ c = '\r' then st
      else { st with err := true }

/-- Process one line of data followed by the end-of-line marker. -/
def processLine (st : CsvState) (line : List Char) : CsvState :=
  processEol (line.foldl processChar st)

/-- `Reader.__next__` iterated over the lines: a record is yielded each
time a line ends in `START_RECORD` mode; state carries across lines
inside multi-line records; at end of input a pending field or an open
quoted field yields a final record; a parse error fails the whole read
(Python raises `csv.Error` out of the surrounding `list(...)`). -/
def readRecordsGo : CsvState → List (List Char) → Option (List (List (List Char)))
  | st, [] =>
    if st.err then none
    else if st.field ≠ [] ∨ st.mode = .inQuotedField then
      some [((saveField st).fields).reverse]
    else some []
  | st, line :: rest =>
    if (processLine st line).err then none
    else if (processLine st line).mode = .startRecord then
      (readRecordsGo initCsvState rest).map
        (fun recs => ((processLine st line).fields).reverse :: recs)
    else readRecordsGo (processLine st line) rest

/-- `list(csv.reader(f, skipinitialspace=True))` on file content: newline
translation, line iteration, then the parser. -/
def readRows (content : List Char) : Option (List Row) :=
  (readRecordsGo initCsvState (splitLines (univNewlines content))).map
    (fun recs => recs.map (fun r => r.map (fun f => (⟨f⟩ : String))))

/-- The field precondition of the amended round-trip claim: no carriage
return, line feed or NUL, and a field starting with a space contains a
delimiter or quote char (so QUOTE_MINIMAL protects the space from
`skipinitialspace`). -/
def fieldOk (f : List Char) : Bool :=
  decide ('\r' ∉ f) && decide ('\n' ∉ f) && decide ('\x00' ∉ f) &&
  (match f with
   | ' ' :: _ => decide (',' ∈ f) || decide ('"' ∈ f)
   | _ => true)

/-- All fields of a row satisfy `fieldOk`. -/
def rowOk (r : Row) : Bool :=
  r.all (fun f => fieldOk f.data)

/-- Unfolding equation for `firstOccurrencesFrom` on a cons cell. -/
theorem firstOccurrencesFrom_cons (seen : List Int) (r : Row) (rest : List Row) :
    firstOccurrencesFrom seen (r :: rest) =
      match channelOf r with
      | some c => firstOccurrencesFrom (if c ∈ seen then seen else seen ++ [c]) rest
      | none => firstOccurrencesFrom seen rest := rfl

/-- `rowMarker` on a row with fewer than 3 fields. -/
theorem rowMarker_short {r : Row} (h3 : r.length < 3) :
    rowMarker r = some META_EVENT_CHANNEL := by
  unfold rowMarker; rw [if_pos h3]

/-- `rowMarker` on a channel-carrying row. -/
theorem rowMarker_channel {r : Row} (h3 : ¬ r.length < 3)
    (hev : is_midi_event (r.getD 2 "") = true) (hlen : 3 < r.length) :
    rowMarker r = pyInt (r.getD 3 "") := by
  unfold rowMarker
  rw [if_neg h3, if_pos (by rw [Bool.and_eq_true, decide_eq_true_eq]; exact ⟨hev, hlen⟩)]

/-- `rowMarker` on a non-channel event type with at least 3 fields. -/
theorem rowMarker_noev {r : Row} (h3 : ¬ r.length < 3)
    (hev : ¬ is_midi_event (r.getD 2 "") = true) :
    rowMarker r = some META_EVENT_CHANNEL := by
  unfold rowMarker
  rw [if_neg h3, if_neg (by simp only [Bool.and_eq_true, decide_eq_true_eq]
                            exact fun hc => hev hc.1)]

/-- `rowMarker` on a channel event type with exactly 3 fields. -/
theorem rowMarker_exact3 {r : Row} (h3 : ¬ r.length < 3) (hlen : ¬ 3 < r.length) :
    rowMarker r = some META_EVENT_CHANNEL := by
  unfold rowMarker
  rw [if_neg h3, if_neg (by simp only [Bool.and_eq_true, decide_eq_true_eq]
                            exact fun hc => hlen hc.2)]

/-- `channelOf` on a row with fewer than 3 fields. -/
theorem channelOf_short {r : Row} (h3 : r.length < 3) : channelOf r = none := by
  unfold channelOf; rw [if_pos h3]

/-- `channelOf` on a channel-carrying row. -/
theorem channelOf_channel {r : Row} (h3 : ¬ r.length < 3)
    (hev : is_midi_event (r.getD 2 "") = true) (hlen : 3 < r.length) :
    channelOf r = pyInt (r.getD 3 "") := by
  unfold channelOf
  rw [if_neg h3, if_pos (by rw [Bool.and_eq_true, decide_eq_true_eq]; exact ⟨hev, hlen⟩)]

/-- `channelOf` on a non-channel event type with at least 3 fields. -/
theorem channelOf_noev {r : Row} (h3 : ¬ r.length < 3)
    (hev : ¬ is_midi_event (r.getD 2 "") = true) : channelOf r = none := by
  unfold channelOf
  rw [if_neg h3, if_neg (by simp only [Bool.and_eq_true, decide_eq_true_eq]
                            exact fun hc => hev hc.1)]

/-- `channelOf` on a channel event type with exactly 3 fields. -/
theorem channelOf_exact3 {r : Row} (h3 : ¬ r.length < 3) (hlen : ¬ 3 < r.length) :
    channelOf r = none := by
  unfold channelOf
  rw [if_neg h3, if_neg (by simp only [Bool.and_eq_true, decide_eq_true_eq]
                            exact fun hc => hlen hc.2)]

/-- Loop invariant for `processGo`: on success every row's marker parsed,
the channel accumulator ends as the first-occurrence list, and the event
accumulator is extended by one `(marker, row)` pair per row in order. -/
theorem processGo_ok (rows : List Row) :
    ∀ (seen : List Int) (es : List (Int × Row)) (cs : List Int)
      (es' : List (Int × Row)),
      processGo rows seen es = .ok (cs, es') →
      (∀ r ∈ rows, (rowMarker r).isSome) ∧
      cs = firstOccurrencesFrom seen rows ∧
      es' = es ++ rows.map (fun r => ((rowMarker r).getD 0, r)) := by
  induction rows with
  | nil =>
    intro seen es cs es' h
    simp only [processGo, Except.ok.injEq, Prod.mk.injEq] at h
    simp [firstOccurrencesFrom, h.1, h.2]
  | cons r rest ih =>
    intro seen es cs es' h
    unfold processGo at h
    by_cases h3 : r.length < 3
    · rw [if_pos h3] at h
      obtain ⟨hall, hcs, hes⟩ := ih _ _ _ _ h
      refine ⟨?_, ?_, ?_⟩
      · intro r' hr'
        rcases List.mem_cons.mp hr' with rfl | hr'
        · rw [rowMarker_short h3]; rfl
        · exact hall _ hr'
      · rw [hcs, firstOccurrencesFrom_cons, channelOf_short h3]
      · rw [hes]; simp [rowMarker_short h3]
    · rw [if_neg h3] at h
      by_cases hev : is_midi_event (r.getD 2 "") = true
      · by_cases hlen : 3 < r.length
        · rw [if_pos (by rw [Bool.and_eq_true, decide_eq_true_eq]
                         exact ⟨hev, hlen⟩)] at h
          cases hp : pyInt (r.getD 3 "") with
          | none => rw [hp] at h; exact absurd h (by simp)
          | some c =>
            rw [hp] at h
            obtain ⟨hall, hcs, hes⟩ := ih _ _ _ _ h
            refine ⟨?_, ?_, ?_⟩
            · intro r' hr'
              rcases List.mem_cons.mp hr' with rfl | hr'
              · rw [rowMarker_channel h3 hev hlen, hp]; rfl
              · exact hall _ hr'
            · rw [hcs, firstOccurrencesFrom_cons, channelOf_channel h3 hev hlen, hp]
            · rw [hes]; simp only [List.map_cons]
              rw [rowMarker_channel h3 hev hlen, hp]; simp
        · rw [if_neg (by simp only [Bool.and_eq_true, decide_eq_true_eq]
                         exact fun hc => hlen hc.2)] at h
          obtain ⟨hall, hcs, hes⟩ := ih _ _ _ _ h
          refine ⟨?_, ?_, ?_⟩
          · intro r' hr'
            rcases List.mem_cons.mp hr' with rfl | hr'
            · rw [rowMarker_exact3 h3 hlen]; rfl
            · exact hall _ hr'
          · rw [hcs, firstOccurrencesFrom_cons, channelOf_exact3 h3 hlen]
          · rw [hes]; simp [rowMarker_exact3 h3 hlen]
      · rw [if_neg (by simp only [Bool.and_eq_true, decide_eq_true_eq]
                       exact fun hc => hev hc.1)] at h
        obtain ⟨hall, hcs, hes⟩ := ih _ _ _ _ h
        refine ⟨?_, ?_, ?_⟩
        · intro r' hr'
          rcases List.mem_cons.mp hr' with rfl | hr'
          · rw [rowMarker_noev h3 hev]; rfl
          · exact hall _ hr'
        · rw [hcs, firstOccurrencesFrom_cons, channelOf_noev h3 hev]
        · rw [hes]; simp [rowMarker_noev h3 hev]

/-- `firstOccurrencesFrom` preserves freedom from duplicates: membership
is checked before appending. -/
theorem firstOccurrencesFrom_nodup (rows : List Row) :
    ∀ seen : List Int, seen.Nodup → (firstOccurrencesFrom seen rows).Nodup := by
  induction rows with
  | nil => intro seen hs; exact hs
  | cons r rest ih =>
    intro seen hs
    rw [firstOccurrencesFrom_cons]
    cases channelOf r with
    | none => exact ih seen hs
    | some c =>
      by_cases hc : c ∈ seen
      · simp only [if_pos hc]; exact ih seen hs
      · simp only [if_neg hc]
        exact ih (seen ++ [c]) (by simp [List.nodup_append, hs, hc])

/-- Membership in the channel accumulator: a channel is present exactly
when it was already seen or some row contributes it. -/
theorem firstOccurrencesFrom_mem (rows : List Row) :
    ∀ (seen : List Int) (c : Int),
      c ∈ firstOccurrencesFrom seen rows ↔
        c ∈ seen ∨ ∃ r ∈ rows, channelOf r = some c := by
  induction rows with
  | nil => intro seen c; simp [firstOccurrencesFrom]
  | cons r rest ih =>
    intro seen c
    rw [firstOccurrencesFrom_cons]
    cases hr : channelOf r with
    | none => rw [ih]; simp [hr]
    | some d =>
      by_cases hd : d ∈ seen
      · simp only [if_pos hd]
        rw [ih]
        constructor
        · rintro (hc | hc)
          · exact Or.inl hc
          · exact Or.inr (by simpa using Or.inr hc)
        · rintro (hc | ⟨r1, hr1, hcr⟩)
          · exact Or.inl hc
          · rcases List.mem_cons.mp hr1 with rfl | h1
            · have hdc : d = c := by rw [hr] at hcr; injection hcr
              exact Or.inl (hdc ▸ hd)
            · exact Or.inr ⟨r1, h1, hcr⟩
      · simp only [if_neg hd]
        rw [ih]
        constructor
        · rintro (hc | hc)
          · rcases List.mem_append.mp hc with h1 | h1
            · exact Or.inl h1
            · refine Or.inr ⟨r, List.mem_cons_self _ _, ?_⟩
              rw [hr]; simpa using (List.mem_singleton.mp h1).symm
          · exact Or.inr (by simpa using Or.inr hc)
        · rintro (hc | ⟨r1, hr1, hcr⟩)
          · exact Or.inl (List.mem_append.mpr (Or.inl hc))
          · rcases List.mem_cons.mp hr1 with rfl | h1
            · have hdc : d = c := by rw [hr] at hcr; injection hcr
              exact Or.inl (by simp [hdc])
            · exact Or.inr ⟨r1, h1, hcr⟩

/-- A row with a channel-carrying type label, more than 3 fields and an
unparseable field 3 makes the whole loop fail, whatever comes before. -/
theorem processGo_error (rows : List Row) :
    ∀ (seen : List Int) (es : List (Int × Row)),
      (∃ r ∈ rows, 3 < r.length ∧ is_midi_event (r.getD 2 "") = true ∧
        pyInt (r.getD 3 "") = none) →
      ∃ e, processGo rows seen es = .error e := by
  induction rows with
  | nil => intro seen es h; simp at h
  | cons r rest ih =>
    intro seen es ⟨r0, hmem, hlen0, hev0, hp0⟩
    unfold processGo
    rcases List.mem_cons.mp hmem with rfl | hmem
    · have h3 : ¬ r0.length < 3 := by omega
      rw [if_neg h3,
        if_pos (by rw [Bool.and_eq_true, decide_eq_true_eq]; exact ⟨hev0, hlen0⟩),
        hp0]
      exact ⟨_, rfl⟩
    · by_cases h3 : r.length < 3
      · rw [if_pos h3]; exact ih _ _ ⟨r0, hmem, hlen0, hev0, hp0⟩
      · rw [if_neg h3]
        by_cases hmid : (is_midi_event (r.getD 2 "") && decide (3 < r.length)) = true
        · rw [if_pos hmid]
          cases hp : pyInt (r.getD 3 "") with
          | none => exact ⟨_, rfl⟩
          | some c => exact ih _ _ ⟨r0, hmem, hlen0, hev0, hp0⟩
        · rw [if_neg hmid]; exact ih _ _ ⟨r0, hmem, hlen0, hev0, hp0⟩

/-! ## Claim theorems -/

/-- C1 (partition completeness): for every input whose channel fields all
parse and every channel `c` in the discovered channel list, the rows
`_write_channel_file` emits for `c` form a subsequence of the classified
sequence (original relative order), contain exactly the global rows and
exactly the rows classified to `c` (each in original order), contain
nothing carrying any other marker, and the classified sequence carries
every input row in order. -/
theorem partition_completeness (rows : List Row) (channels : List Int)
    (events : List (Int × Row)) (c : Int)
    (hok : process_midi_events rows = .ok (channels, events))
    (_hc : c ∈ channels) :
    (partitionEvents c events).Sublist events ∧
    (partitionEvents c events).filter (fun e => e.1 == META_EVENT_CHANNEL) =
      events.filter (fun e => e.1 == META_EVENT_CHANNEL) ∧
    (partitionEvents c events).filter (fun e => e.1 == c) =
      events.filter (fun e => e.1 == c) ∧
    (∀ e ∈ partitionEvents c events, e.1 = c ∨ e.1 = META_EVENT_CHANNEL) ∧
    events.map Prod.snd = rows := by
  obtain ⟨hall, hcs, hes⟩ := processGo_ok rows [] [] channels events hok
  refine ⟨List.filter_sublist _, ?_, ?_, ?_, ?_⟩
  · rw [partitionEvents, List.filter_filter]
    exact List.filter_congr (fun e _ => by
      cases h : (e.1 == META_EVENT_CHANNEL) <;> simp [h])
  · rw [partitionEvents, List.filter_filter]
    exact List.filter_congr (fun e _ => by
      cases h : (e.1 == c) <;> simp [h])
  · intro e he
    have := (List.mem_filter.mp he).2
    rcases Bool.or_eq_true_iff.mp this with h | h
    · exact Or.inl (by simpa using h)
    · exact Or.inr (by simpa using h)
  · rw [hes]; simp [Function.comp_def]

/-- C1 witness: a two-row input with one global row and one channel-1 row. -/
theorem partition_completeness_witness :
    process_midi_events [["0", "0"], ["1", "0", "Note_on_c", "1", "60", "100"]] =
      .ok ([1], [(-1, ["0", "0"]), (1, ["1", "0", "Note_on_c", "1", "60", "100"])]) ∧
    (1 : Int) ∈ [(1 : Int)] ∧
    ((partitionEvents 1 [(-1, ["0", "0"]), (1, ["1", "0", "Note_on_c", "1", "60", "100"])]).Sublist
        [(-1, ["0", "0"]), (1, ["1", "0", "Note_on_c", "1", "60", "100"])] ∧
      (partitionEvents 1 [(-1, ["0", "0"]), (1, ["1", "0", "Note_on_c", "1", "60", "100"])]).filter
          (fun e => e.1 == META_EVENT_CHANNEL) =
        [(-1, ["0", "0"]), (1, ["1", "0", "Note_on_c", "1", "60", "100"])].filter
          (fun e => e.1 == META_EVENT_CHANNEL) ∧
      (partitionEvents 1 [(-1, ["0", "0"]), (1, ["1", "0", "Note_on_c", "1", "60", "100"])]).filter
          (fun e => e.1 == 1) =
        [(-1, ["0", "0"]), (1, ["1", "0", "Note_on_c", "1", "60", "100"])].filter
          (fun e => e.1 == 1) ∧
      (∀ e ∈ partitionEvents 1 [(-1, ["0", "0"]), (1, ["1", "0", "Note_on_c", "1", "60", "100"])],
        e.1 = 1 ∨ e.1 = META_EVENT_CHANNEL) ∧
      [(-1, ["0", "0"]), (1, ["1", "0", "Note_on_c", "1", "60", "100"])].map Prod.snd =
        [["0", "0"], ["1", "0", "Note_on_c", "1", "60", "100"]]) :=
  ⟨by rfl, by decide,
    partition_completeness _ _ _ 1 (by rfl) (by decide)⟩


/-- C2 (classification rule): on a successful run, the classified
sequence pairs each input row, in position, with its marker: global when
the row has fewer than 3 fields; the integer parsed from field 3 when
field 2 is a channel-carrying label and the row has more than 3 fields
(so a 4-field channel-carrying row is classified to field 3); global
otherwise (in particular a channel-carrying label with exactly 3
fields). -/
theorem classification_rule (rows : List Row) (channels : List Int)
    (events : List (Int × Row))
    (hok : process_midi_events rows = .ok (channels, events)) :
    events.length = rows.length ∧
    ∀ i, i < rows.length →
      (events.getD i (0, [])).2 = rows.getD i [] ∧
      ((rows.getD i []).length < 3 →
        (events.getD i (0, [])).1 = META_EVENT_CHANNEL) ∧
      (¬ (rows.getD i []).length < 3 →
        is_midi_event ((rows.getD i []).getD 2 "") = true →
        3 < (rows.getD i []).length →
        pyInt ((rows.getD i []).getD 3 "") = some (events.getD i (0, [])).1) ∧
      (¬ (rows.getD i []).length < 3 →
        ¬ (is_midi_event ((rows.getD i []).getD 2 "") = true ∧
            3 < (rows.getD i []).length) →
        (events.getD i (0, [])).1 = META_EVENT_CHANNEL) := by
  obtain ⟨hall, hcs, hes⟩ := processGo_ok rows [] [] channels events hok
  rw [List.nil_append] at hes
  subst hes
  have hlen : (rows.map (fun r => ((rowMarker r).getD 0, r))).length = rows.length :=
    List.length_map _ _
  refine ⟨hlen, ?_⟩
  intro i hi
  have hrow : rows.getD i [] = rows[i] := List.getD_eq_getElem rows [] hi
  have hev : (rows.map (fun r => ((rowMarker r).getD 0, r))).getD i (0, []) =
      ((rowMarker rows[i]).getD 0, rows[i]) := by
    rw [List.getD_eq_getElem _ (0, []) (by rw [hlen]; exact hi)]
    simp
  have hmem : rows[i] ∈ rows := List.getElem_mem hi
  refine ⟨by rw [hev, hrow], ?_, ?_, ?_⟩
  · intro h3
    rw [hrow] at h3
    rw [hev, rowMarker_short h3]; rfl
  · intro h3 hmid hlen4
    rw [hrow] at h3 hmid hlen4 ⊢
    obtain ⟨m, hm⟩ := Option.isSome_iff_exists.mp (hall _ hmem)
    rw [hev, rowMarker_channel h3 hmid hlen4]
    rw [rowMarker_channel h3 hmid hlen4] at hm
    rw [hm]; rfl
  · intro h3 hmid
    rw [hrow] at h3 hmid
    rw [hev]
    by_cases hev2 : is_midi_event (rows[i].getD 2 "") = true
    · have hlen4 : ¬ 3 < rows[i].length := fun h => hmid ⟨hev2, h⟩
      rw [rowMarker_exact3 h3 hlen4]; rfl
    · rw [rowMarker_noev h3 hev2]; rfl

/-- C2 witness: the classification rule instantiated on `c2Rows`. -/
theorem classification_rule_witness :
    process_midi_events c2Rows = .ok ([9], c2Events) ∧
    (c2Events.length = c2Rows.length ∧
      ∀ i, i < c2Rows.length →
        (c2Events.getD i (0, [])).2 = c2Rows.getD i [] ∧
        ((c2Rows.getD i []).length < 3 →
          (c2Events.getD i (0, [])).1 = META_EVENT_CHANNEL) ∧
        (¬ (c2Rows.getD i []).length < 3 →
          is_midi_event ((c2Rows.getD i []).getD 2 "") = true →
          3 < (c2Rows.getD i []).length →
          pyInt ((c2Rows.getD i []).getD 3 "") = some (c2Events.getD i (0, [])).1) ∧
        (¬ (c2Rows.getD i []).length < 3 →
          ¬ (is_midi_event ((c2Rows.getD i []).getD 2 "") = true ∧
              3 < (c2Rows.getD i []).length) →
          (c2Events.getD i (0, [])).1 = META_EVENT_CHANNEL)) :=
  ⟨by rfl, classification_rule c2Rows [9] c2Events (by rfl)⟩

/-- C3 (channel-set discovery order): on a successful run the discovered
channel list has no duplicates, equals the first-occurrence accumulation
over the input scanned top to bottom, and contains exactly the channel
numbers contributed by some row. -/
theorem channel_discovery_order (rows : List Row) (channels : List Int)
    (events : List (Int × Row))
    (hok : process_midi_events rows = .ok (channels, events)) :
    channels.Nodup ∧
    channels = firstOccurrencesFrom [] rows ∧
    ∀ c, c ∈ channels ↔ ∃ r ∈ rows, channelOf r = some c := by
  obtain ⟨hall, hcs, hes⟩ := processGo_ok rows [] [] channels events hok
  refine ⟨?_, hcs, ?_⟩
  · rw [hcs]; exact firstOccurrencesFrom_nodup rows [] List.nodup_nil
  · intro c
    rw [hcs, firstOccurrencesFrom_mem]
    simp

/-- C3 witness: channels 2 and 1 are discovered in first-appearance order,
the repeat of channel 2 is not appended again. -/
theorem channel_discovery_order_witness :
    process_midi_events
        [["1", "0", "Program_c", "2", "27"], ["1", "0", "Program_c", "1", "32"],
          ["1", "5", "Note_on_c", "2", "40", "80"]] =
      .ok ([2, 1], [(2, ["1", "0", "Program_c", "2", "27"]),
        (1, ["1", "0", "Program_c", "1", "32"]),
        (2, ["1", "5", "Note_on_c", "2", "40", "80"])]) ∧
    (([2, 1] : List Int).Nodup ∧
      ([2, 1] : List Int) = firstOccurrencesFrom []
        [["1", "0", "Program_c", "2", "27"], ["1", "0", "Program_c", "1", "32"],
          ["1", "5", "Note_on_c", "2", "40", "80"]] ∧
      ∀ c, c ∈ ([2, 1] : List Int) ↔
        ∃ r ∈ [["1", "0", "Program_c", "2", "27"], ["1", "0", "Program_c", "1", "32"],
          ["1", "5", "Note_on_c", "2", "40", "80"]], channelOf r = some c) :=
  ⟨by rfl, channel_discovery_order _ _ _ (by rfl)⟩

/-- C4 (malformed channel field is a hard failure): if any input row has a
channel-carrying type label in field 2, more than 3 fields, and a field 3
that is not a valid integer, `_process_midi_events` returns an error (the
Python code raises, with `process_file` wrapping the exception in
`MidiSplitterError`); no per-row recovery occurs. -/
theorem malformed_channel_error (rows : List Row)
    (h : ∃ r ∈ rows, 3 < r.length ∧ is_midi_event (r.getD 2 "") = true ∧
      pyInt (r.getD 3 "") = none) :
    ∃ e, process_midi_events rows = .error e :=
  processGo_error rows [] [] h

/-- C4 witness: a `Note_on_c` row whose channel field is `"x"`. -/
theorem malformed_channel_error_witness :
    (∃ r ∈ [["1", "0", "Header"], ["1", "0", "Note_on_c", "x", "40"]],
      3 < r.length ∧ is_midi_event (r.getD 2 "") = true ∧
        pyInt (r.getD 3 "") = none) ∧
    ∃ e, process_midi_events
      [["1", "0", "Header"], ["1", "0", "Note_on_c", "x", "40"]] = .error e :=
  ⟨by decide,
    malformed_channel_error [["1", "0", "Header"], ["1", "0", "Note_on_c", "x", "40"]]
      (by decide)⟩

/-- C5 (global-marker sentinel collision): on an input with a
channel-carrying row whose field 3 parses to `-1`, the classifier gives
that row the global marker's value (`-1 = META_EVENT_CHANNEL`) while also
appending `-1` to the channel list, and the row is emitted into the
partition of every discovered channel — here both channel `-1` and
channel `5` — so cross-channel exclusion fails for negative channels. -/
theorem sentinel_collision :
    process_midi_events
        [["1", "0", "Note_on_c", "-1", "40"], ["1", "0", "Note_on_c", "5", "40"]] =
      .ok ([-1, 5], [(-1, ["1", "0", "Note_on_c", "-1", "40"]),
        (5, ["1", "0", "Note_on_c", "5", "40"])]) ∧
    pyInt "-1" = some META_EVENT_CHANNEL ∧
    channelPartition (-1) [(-1, ["1", "0", "Note_on_c", "-1", "40"]),
        (5, ["1", "0", "Note_on_c", "5", "40"])] =
      [["1", "0", "Note_on_c", "-1", "40"]] ∧
    channelPartition 5 [(-1, ["1", "0", "Note_on_c", "-1", "40"]),
        (5, ["1", "0", "Note_on_c", "5", "40"])] =
      [["1", "0", "Note_on_c", "-1", "40"], ["1", "0", "Note_on_c", "5", "40"]] :=
  ⟨by rfl, by rfl, by rfl, by rfl⟩

/-- C7 (idempotent, deterministic classification): the classifier leaves
the instance state untouched, its result does not depend on the instance
state, and running it again — on the state left by the first run — gives
the identical result. -/
theorem classification_deterministic (self other : SplitterState) (rows : List Row) :
    (process_midi_events_method self rows).1 = self ∧
    (process_midi_events_method self rows).2 =
      (process_midi_events_method other rows).2 ∧
    (process_midi_events_method (process_midi_events_method self rows).1 rows).2 =
      (process_midi_events_method self rows).2 :=
  ⟨rfl, rfl, rfl⟩

/-- C8 (textual intermediate deleted only after successful conversion):
whenever the per-channel loop's trace removes channel `c`'s CSV file, the
conversion for `c` succeeded, removal was requested, and the successful
conversion action precedes the removal in the trace; contrapositively a
failed conversion leaves the just-written CSV in place. -/
theorem csv_removed_only_after_convert (remove_csv : Bool)
    (convertOk : Int → Bool) (channels : List Int) (c : Int)
    (h : FsAction.removeCsv c ∈ (channelLoop remove_csv convertOk channels).1) :
    convertOk c = true ∧ remove_csv = true ∧
    [FsAction.convertCsv c, FsAction.removeCsv c].Sublist
      (channelLoop remove_csv convertOk channels).1 := by
  induction channels with
  | nil => simp [channelLoop] at h
  | cons d rest ih =>
    unfold channelLoop at h ⊢
    by_cases hd : convertOk d
    · rw [if_pos hd] at h ⊢
      by_cases hrm : remove_csv
      · rw [if_pos hrm] at h ⊢
        rcases List.mem_append.mp h with h1 | h1
        · have hcd : c = d := by
            rcases List.mem_append.mp h1 with h2 | h2 <;> simp_all
          subst hcd
          refine ⟨hd, hrm, ?_⟩
          exact ((List.Sublist.refl _).cons _).trans (List.sublist_append_left _ _)
        · obtain ⟨h2, h3, h4⟩ := ih h1
          exact ⟨h2, h3, h4.trans (List.sublist_append_right _ _)⟩
      · rw [if_neg hrm] at h ⊢
        rcases List.mem_append.mp h with h1 | h1
        · rcases List.mem_append.mp h1 with h2 | h2 <;> simp_all
        · obtain ⟨h2, h3, h4⟩ := ih h1
          exact ⟨h2, h3, h4.trans (List.sublist_append_right _ _)⟩
    · rw [if_neg hd] at h
      simp at h

/-- C8 witness: one channel, successful conversion, removal requested. -/
theorem csv_removed_only_after_convert_witness :
    FsAction.removeCsv 3 ∈ (channelLoop true (fun _ => true) [3]).1 ∧
    ((fun _ => true : Int → Bool) 3 = true ∧ true = true ∧
      [FsAction.convertCsv 3, FsAction.removeCsv 3].Sublist
        (channelLoop true (fun _ => true) [3]).1) :=
  ⟨by decide, csv_removed_only_after_convert true (fun _ => true) [3] 3 (by decide)⟩

/-- C9 (extension-insensitive binary-input detection): a path is
recognized as MIDI input exactly when it ends, case-insensitively, in
`.mid` or `.midi`. -/
theorem midi_extension_detection (p : String) :
    is_midi_file p = (endsWithCI p ".mid" || endsWithCI p ".midi") := by
  have h1 : (".mid".data.map Char.toLower) = ".mid".data := by decide
  have h2 : (".midi".data.map Char.toLower) = ".midi".data := by decide
  simp only [is_midi_file, MIDI_EXTENSIONS, List.any_cons, List.any_nil,
    Bool.or_false, endsWithCI, h1, h2, pyLower]

/-- On an input whose rows are all global, the loop returns an unchanged
channel accumulator and appends only global markers. -/
theorem processGo_all_global (rows : List Row)
    (h : ∀ r ∈ rows, ¬ (3 < r.length ∧ is_midi_event (r.getD 2 "") = true)) :
    ∀ es, processGo rows [] es =
      .ok ([], es ++ rows.map (fun r => (META_EVENT_CHANNEL, r))) := by
  induction rows with
  | nil => intro es; simp [processGo]
  | cons r rest ih =>
    intro es
    have hr := h r (List.mem_cons_self _ _)
    have hrest : ∀ r' ∈ rest, ¬ (3 < r'.length ∧ is_midi_event (r'.getD 2 "") = true) :=
      fun r' hr' => h r' (List.mem_cons_of_mem _ hr')
    unfold processGo
    by_cases h3 : r.length < 3
    · rw [if_pos h3, ih hrest]; simp
    · rw [if_neg h3,
        if_neg (by simp only [Bool.and_eq_true, decide_eq_true_eq]
                   exact fun hc => hr ⟨hc.2, hc.1⟩),
        ih hrest]
      simp

/-- C10 (empty channel set means no output files): an input with zero
channel-carrying rows classifies to an empty channel list, and the
write/convert loop performs no per-channel filesystem action — the trace
holds only the output-directory creation. -/
theorem empty_channels_no_output (rows : List Row) (remove_csv : Bool)
    (convertOk : Int → Bool)
    (h : ∀ r ∈ rows, ¬ (3 < r.length ∧ is_midi_event (r.getD 2 "") = true)) :
    process_midi_events rows =
      .ok ([], rows.map (fun r => (META_EVENT_CHANNEL, r))) ∧
    process_csv_file_actions remove_csv convertOk rows = ([.mkdirOut], none) := by
  have hok : process_midi_events rows =
      .ok ([], rows.map (fun r => (META_EVENT_CHANNEL, r))) := by
    rw [process_midi_events, processGo_all_global rows h []]; simp
  refine ⟨hok, ?_⟩
  unfold process_csv_file_actions
  rw [hok]
  simp [channelLoop]

/-- C10 witness: a header row and a 2-field row, no channel-carrying rows. -/
theorem empty_channels_no_output_witness :
    (∀ r ∈ [["0", "0", "Header", "0", "1", "96"], ["1", "0"]],
      ¬ (3 < r.length ∧ is_midi_event (r.getD 2 "") = true)) ∧
    (process_midi_events [["0", "0", "Header", "0", "1", "96"], ["1", "0"]] =
        .ok ([], [["0", "0", "Header", "0", "1", "96"], ["1", "0"]].map
          (fun r => (META_EVENT_CHANNEL, r))) ∧
      process_csv_file_actions true (fun _ => true)
          [["0", "0", "Header", "0", "1", "96"], ["1", "0"]] =
        ([.mkdirOut], none)) :=
  ⟨by decide,
    empty_channels_no_output [["0", "0", "Header", "0", "1", "96"], ["1", "0"]]
      true (fun _ => true) (by decide)⟩

/-- Characters of `doubleQuotes f` other than the quote char come from
`f`. -/
theorem doubleQuotes_not_mem {x : Char} {f : List Char}
    (hx : x ≠ '"') (h : x ∉ f) : x ∉ doubleQuotes f := by
  induction f with
  | nil => simp [doubleQuotes]
  | cons c rest ih =>
    have hc : x ≠ c := fun hxc => h (hxc ▸ List.mem_cons_self _ _)
    have hrest : x ∉ rest := fun hr => h (List.mem_cons_of_mem _ hr)
    unfold doubleQuotes
    by_cases hq : c = '"'
    · rw [if_pos hq]
      simp only [List.mem_cons]
      rintro (h1 | h1 | h1)
      · exact hx h1
      · exact hx h1
      · exact ih hrest h1
    · rw [if_neg hq]
      simp only [List.mem_cons]
      rintro (h1 | h1)
      · exact hc h1
      · exact ih hrest h1

/-- Characters of `encodeField f` other than the quote char come from
`f`. -/
theorem encodeField_not_mem {x : Char} {f : List Char}
    (hx : x ≠ '"') (h : x ∉ f) : x ∉ encodeField f := by
  unfold encodeField
  by_cases hq : needsQuote f = true
  · rw [if_pos hq]
    simp only [List.mem_cons, List.mem_append]
    rintro (h1 | h1 | h1 | h1)
    · exact hx h1
    · exact doubleQuotes_not_mem hx h h1
    · exact hx h1
    · simp at h1
  · rw [if_neg hq]; exact h

/-- Characters of a joined record body, besides quote char and
delimiter, come from the fields. -/
theorem writeRowBody_not_mem {x : Char} {r : List (List Char)}
    (hx : x ≠ '"') (hc : x ≠ ',') (h : ∀ f ∈ r, x ∉ f) :
    x ∉ writeRowBody r := by
  induction r with
  | nil => simp [writeRowBody]
  | cons f rest ih =>
    have hf : x ∉ encodeField f :=
      encodeField_not_mem hx (h f (List.mem_cons_self _ _))
    have hrest : ∀ f' ∈ rest, x ∉ f' :=
      fun f' hf' => h f' (List.mem_cons_of_mem _ hf')
    unfold writeRowBody
    cases rest with
    | nil => simpa using hf
    | cons g rest2 =>
      simp only [List.mem_append, List.mem_cons]
      rintro (h1 | h1 | h1)
      · exact hf h1
      · exact hc h1
      · exact ih hrest h1

/-- Characters of a full record, besides quote char and delimiter, come
from the fields. -/
theorem writeRowRecord_not_mem {x : Char} {r : List (List Char)}
    (hx : x ≠ '"') (hc : x ≠ ',') (h : ∀ f ∈ r, x ∉ f) :
    x ∉ writeRowRecord r := by
  unfold writeRowRecord
  by_cases hs : 0 < r.length ∧ (writeRowBody r).length = 0
  · rw [if_pos hs]
    intro h1
    simp at h1
    exact hx h1
  · rw [if_neg hs]; exact writeRowBody_not_mem hx hc h

/-- `univNewlines` on a cons whose head is not a carriage return. -/
theorem univNewlines_cons_ne {c : Char} (hc : c ≠ '\r') (l : List Char) :
    univNewlines (c :: l) = c :: univNewlines l := by
  cases l with
  | nil => simp [univNewlines, hc]
  | cons d rest => simp [univNewlines, hc]

/-- `univNewlines` translates a CRLF pair. -/
theorem univNewlines_crlf (rest : List Char) :
    univNewlines ('\r' :: '\n' :: rest) = '\n' :: univNewlines rest := by
  simp [univNewlines]

/-- `univNewlines` passes a carriage-return-free prefix through. -/
theorem univNewlines_clean_append {xs : List Char} (ys : List Char)
    (h : '\r' ∉ xs) : univNewlines (xs ++ ys) = xs ++ univNewlines ys := by
  induction xs with
  | nil => rfl
  | cons c rest ih =>
    have hc : c ≠ '\r' := fun hcc => h (hcc ▸ List.mem_cons_self _ _)
    have hrest : '\r' ∉ rest := fun hr => h (List.mem_cons_of_mem _ hr)
    rw [List.cons_append, univNewlines_cons_ne hc, ih hrest]
    rfl

/-- Unfolding equation for `splitLinesGo` on a cons cell. -/
theorem splitLinesGo_cons (acc : List Char) (c : Char) (l : List Char) :
    splitLinesGo acc (c :: l) =
      if c = '\n' then (acc.reverse ++ ['\n']) :: splitLinesGo [] l
      else splitLinesGo (c :: acc) l := rfl

/-- `splitLinesGo` on a newline-free body followed by a newline. -/
theorem splitLinesGo_line (body : List Char) :
    ∀ (acc rest : List Char), '\n' ∉ body →
      splitLinesGo acc (body ++ '\n' :: rest) =
        (acc.reverse ++ body ++ ['\n']) :: splitLinesGo [] rest := by
  induction body with
  | nil => intro acc rest _; simp [splitLinesGo_cons]
  | cons c body' ih =>
    intro acc rest h
    have hc : c ≠ '\n' := fun hcc => h (hcc ▸ List.mem_cons_self _ _)
    have hbody : '\n' ∉ body' := fun hb => h (List.mem_cons_of_mem _ hb)
    rw [List.cons_append, splitLinesGo_cons, if_neg hc, ih (c :: acc) rest hbody]
    simp

/-- `splitLinesGo` recovers newline-terminated lines from their
concatenation. -/
theorem splitLinesGo_flatten (bodies : List (List Char))
    (h : ∀ b ∈ bodies, '\n' ∉ b) :
    splitLinesGo [] ((bodies.map (fun b => b ++ ['\n'])).flatten) =
      bodies.map (fun b => b ++ ['\n']) := by
  induction bodies with
  | nil => rfl
  | cons b rest ih =>
    have hb : '\n' ∉ b := h b (List.mem_cons_self _ _)
    have hrest : ∀ b' ∈ rest, '\n' ∉ b' :=
      fun b' hb' => h b' (List.mem_cons_of_mem _ hb')
    simp only [List.map_cons, List.flatten_cons, List.append_assoc,
      List.singleton_append]
    rw [splitLinesGo_line b [] _ hb, ih hrest]
    simp

/-- A character with no special role under QUOTE_MINIMAL. -/
theorem needsQuote_false_spec {f : List Char} (h : needsQuote f = false) :
    ∀ c ∈ f, c ≠ ',' ∧ c ≠ '"' ∧ c ≠ '\r' ∧ c ≠ '\n' := by
  intro c hc
  unfold needsQuote at h
  rw [List.any_eq_false] at h
  have := h c hc
  simp only [Bool.or_eq_true, beq_iff_eq, not_or] at this
  exact ⟨this.1.1.1, this.1.1.2, this.1.2, this.2⟩

/-- A field containing the delimiter or quote char is quoted. -/
theorem needsQuote_of_mem {f : List Char} (h : ',' ∈ f ∨ '"' ∈ f) :
    needsQuote f = true := by
  unfold needsQuote
  rw [List.any_eq_true]
  rcases h with h | h
  · exact ⟨',', h, by decide⟩
  · exact ⟨'"', h, by decide⟩

/-- Unquoted field characters accumulate in `inField` mode. -/
theorem foldl_inField (f : List Char)
    (h : ∀ c ∈ f, c ≠ ',' ∧ c ≠ '\r' ∧ c ≠ '\n' ∧ c ≠ '\x00') :
    ∀ (acc : List Char) (fs : List (List Char)),
      f.foldl processChar ⟨.inField, acc, fs, false⟩ =
        ⟨.inField, f.reverse ++ acc, fs, false⟩ := by
  induction f with
  | nil => intro acc fs; rfl
  | cons c f' ih =>
    intro acc fs
    obtain ⟨h1, h2, h3, h4⟩ := h c (List.mem_cons_self _ _)
    have hf' := fun c' hc' => h c' (List.mem_cons_of_mem _ hc')
    rw [List.foldl_cons,
      show processChar ⟨.inField, acc, fs, false⟩ c = ⟨.inField, c :: acc, fs, false⟩ by
        simp [processChar, h1, h2, h3, h4],
      ih hf']
    simp

/-- Doubled quoted-field content accumulates in `inQuotedField` mode. -/
theorem foldl_quoted (f : List Char) (h : '\x00' ∉ f) :
    ∀ (acc : List Char) (fs : List (List Char)),
      (doubleQuotes f).foldl processChar ⟨.inQuotedField, acc, fs, false⟩ =
        ⟨.inQuotedField, f.reverse ++ acc, fs, false⟩ := by
  induction f with
  | nil => intro acc fs; rfl
  | cons c f' ih =>
    intro acc fs
    have hc0 : c ≠ '\x00' := fun h0 => h (h0 ▸ List.mem_cons_self _ _)
    have hf' : '\x00' ∉ f' := fun h0 => h (List.mem_cons_of_mem _ h0)
    unfold doubleQuotes
    by_cases hq : c = '"'
    · subst hq
      rw [if_pos rfl, List.foldl_cons, List.foldl_cons,
        show processChar ⟨.inQuotedField, acc, fs, false⟩ '"' =
            ⟨.quoteInQuotedField, acc, fs, false⟩ by simp [processChar],
        show processChar ⟨.quoteInQuotedField, acc, fs, false⟩ '"' =
            ⟨.inQuotedField, '"' :: acc, fs, false⟩ by simp [processChar],
        ih hf']
      simp
    · rw [if_neg hq, List.foldl_cons,
        show processChar ⟨.inQuotedField, acc, fs, false⟩ c =
            ⟨.inQuotedField, c :: acc, fs, false⟩ by simp [processChar, hq, hc0],
        ih hf']
      simp

/-- From any of the three field-end modes, the delimiter saves the field
and returns to `startField`. -/
theorem processChar_close_comma (m : CsvMode) (acc : List Char)
    (fs : List (List Char))
    (hm : m = .inField ∨ m = .startField ∨ m = .quoteInQuotedField) :
    processChar ⟨m, acc, fs, false⟩ ',' =
      ⟨.startField, [], acc.reverse :: fs, false⟩ := by
  rcases hm with rfl | rfl | rfl <;> simp [processChar, startFieldStep, saveField]

/-- From any of the three field-end modes, a newline saves the field and
enters `eatCrnl`. -/
theorem processChar_close_nl (m : CsvMode) (acc : List Char)
    (fs : List (List Char))
    (hm : m = .inField ∨ m = .startField ∨ m = .quoteInQuotedField) :
    processChar ⟨m, acc, fs, false⟩ '\n' =
      ⟨.eatCrnl, [], acc.reverse :: fs, false⟩ := by
  rcases hm with rfl | rfl | rfl <;> simp [processChar, startFieldStep, saveField]

/-- Decomposition of `fieldOk`. -/
theorem fieldOk_spec {f : List Char} (h : fieldOk f = true) :
    '\r' ∉ f ∧ '\n' ∉ f ∧ '\x00' ∉ f ∧
      (∀ f', f = ' ' :: f' → ',' ∈ f ∨ '"' ∈ f) := by
  unfold fieldOk at h
  simp only [Bool.and_eq_true, decide_eq_true_eq] at h
  refine ⟨h.1.1.1, h.1.1.2, h.1.2, ?_⟩
  intro f' hf
  subst hf
  have := h.2
  simp only [Bool.or_eq_true, decide_eq_true_eq] at this
  exact this

/-- Processing one encoded field from `startField` accumulates exactly
the field and ends in one of the three field-end modes. -/
theorem foldl_encode (f : List Char) (hok : fieldOk f = true)
    (fs : List (List Char)) :
    ∃ m, (encodeField f).foldl processChar ⟨.startField, [], fs, false⟩ =
        ⟨m, f.reverse, fs, false⟩ ∧
      (m = .inField ∨ m = .startField ∨ m = .quoteInQuotedField) := by
  obtain ⟨hr, hn, h0, hsp⟩ := fieldOk_spec hok
  by_cases hq : needsQuote f = true
  · refine ⟨.quoteInQuotedField, ?_, Or.inr (Or.inr rfl)⟩
    unfold encodeField
    rw [if_pos hq, List.foldl_cons,
      show processChar ⟨.startField, [], fs, false⟩ '"' =
          ⟨.inQuotedField, [], fs, false⟩ by
        simp [processChar, startFieldStep],
      List.foldl_append, foldl_quoted f h0 [] fs]
    simp [processChar]
  · unfold encodeField
    rw [if_neg hq]
    replace hq : needsQuote f = false := by simpa using hq
    have hchars := needsQuote_false_spec hq
    cases f with
    | nil => exact ⟨.startField, rfl, Or.inr (Or.inl rfl)⟩
    | cons c f' =>
      refine ⟨.inField, ?_, Or.inl rfl⟩
      obtain ⟨hc1, hc2, hc3, hc4⟩ := hchars c (List.mem_cons_self _ _)
      have hc0 : c ≠ '\x00' := fun h => h0 (h ▸ List.mem_cons_self _ _)
      have hcsp : c ≠ ' ' := by
        intro h
        subst h
        rw [needsQuote_of_mem (hsp f' rfl)] at hq
        cases hq
      have hf' : ∀ c' ∈ f', c' ≠ ',' ∧ c' ≠ '\r' ∧ c' ≠ '\n' ∧ c' ≠ '\x00' := by
        intro c' hc'
        obtain ⟨d1, d2, d3, d4⟩ := hchars c' (List.mem_cons_of_mem _ hc')
        exact ⟨d1, d3, d4, fun h => h0 (h ▸ List.mem_cons_of_mem _ hc')⟩
      rw [List.foldl_cons,
        show processChar ⟨.startField, [], fs, false⟩ c =
            ⟨.inField, [c], fs, false⟩ by
          simp [processChar, startFieldStep, hc0, hc2, hc3, hc4, hcsp, hc1],
        foldl_inField f' hf' [c] fs]
      simp

/-- Processing a whole joined record plus its newline from `startField`
saves all the fields, in order, and ends in `eatCrnl`. -/
theorem foldl_record (r : List (List Char)) :
    ∀ fs : List (List Char), r ≠ [] → (∀ f ∈ r, fieldOk f = true) →
      (writeRowBody r ++ ['\n']).foldl processChar ⟨.startField, [], fs, false⟩ =
        ⟨.eatCrnl, [], r.reverse ++ fs, false⟩ := by
  induction r with
  | nil => intro fs h _; cases h rfl
  | cons f rest ih =>
    intro fs _ hok
    have hf := hok f (List.mem_cons_self _ _)
    cases rest with
    | nil =>
      show ((encodeField f ++ []) ++ ['\n']).foldl processChar _ = _
      rw [List.append_nil]
      obtain ⟨m, hm, hmode⟩ := foldl_encode f hf fs
      rw [List.foldl_append, hm, List.foldl_cons, List.foldl_nil,
        processChar_close_nl m f.reverse fs hmode]
      simp
    | cons g rest2 =>
      have hsplit : (writeRowBody (f :: g :: rest2)) ++ ['\n'] =
          (encodeField f ++ [',']) ++ (writeRowBody (g :: rest2) ++ ['\n']) := by
        show (encodeField f ++ ',' :: writeRowBody (g :: rest2)) ++ ['\n'] = _
        simp
      rw [hsplit, List.foldl_append]
      obtain ⟨m, hm, hmode⟩ := foldl_encode f hf fs
      have hA : (encodeField f ++ [',']).foldl processChar
          ⟨.startField, [], fs, false⟩ = ⟨.startField, [], f :: fs, false⟩ := by
        rw [List.foldl_append, hm, List.foldl_cons, List.foldl_nil,
          processChar_close_comma m f.reverse fs hmode, List.reverse_reverse]
      rw [hA, ih (f :: fs) (by simp)
          (fun f' hf' => hok f' (List.mem_cons_of_mem _ hf'))]
      simp

/-- On characters that are not line ends or NUL, the `startRecord`
fallthrough makes the first character of a record behave exactly as in
`startField` mode. -/
theorem processChar_startRecord_eq (x : List Char) (y : List (List Char))
    (c : Char) (hn : c ≠ '\n') (hr : c ≠ '\r') (h0 : c ≠ '\x00') :
    processChar ⟨.startRecord, x, y, false⟩ c =
      processChar ⟨.startField, x, y, false⟩ c := by
  simp [processChar, hn, hr, h0]

/-- A record with fields, other than the single-empty-field record, has a
non-empty joined body. -/
theorem writeRowBody_ne_nil (f : List Char) (rest : List (List Char))
    (h : f :: rest ≠ [List.nil]) : writeRowBody (f :: rest) ≠ [] := by
  cases rest with
  | nil =>
    have hf : f ≠ [] := by intro h'; subst h'; exact h rfl
    show encodeField f ++ [] ≠ []
    rw [List.append_nil]
    unfold encodeField
    by_cases hq : needsQuote f = true
    · simp [hq]
    · simpa [hq] using hf
  | cons g rest2 =>
    show encodeField f ++ ',' :: writeRowBody (g :: rest2) ≠ []
    simp

/-- Processing one written record line from the initial state ends a
record holding exactly the written fields. -/
theorem processLine_record (r : List (List Char))
    (hok : ∀ f ∈ r, fieldOk f = true) :
    processLine initCsvState (writeRowRecord r ++ ['\n']) =
      ⟨.startRecord, [], r.reverse, false⟩ := by
  by_cases h1 : r = []
  · subst h1; rfl
  by_cases h2 : r = [List.nil]
  · subst h2; rfl
  obtain ⟨f, rest, rfl⟩ : ∃ f rest, r = f :: rest := by
    cases r with
    | nil => cases h1 rfl
    | cons f rest => exact ⟨f, rest, rfl⟩
  have hbody := writeRowBody_ne_nil f rest h2
  have hrec : writeRowRecord (f :: rest) = writeRowBody (f :: rest) := by
    unfold writeRowRecord
    rw [if_neg]
    rintro ⟨_, hlen⟩
    exact hbody (List.length_eq_zero.mp hlen)
  unfold processLine
  rw [hrec]
  cases hb : writeRowBody (f :: rest) with
  | nil => cases hbody hb
  | cons c cs =>
    have hcmem : c ∈ writeRowBody (f :: rest) := hb ▸ List.mem_cons_self _ _
    have hcr : c ≠ '\r' := by
      rintro rfl
      exact writeRowBody_not_mem (by decide) (by decide)
        (fun f' hf' => (fieldOk_spec (hok f' hf')).1) hcmem
    have hcn : c ≠ '\n' := by
      rintro rfl
      exact writeRowBody_not_mem (by decide) (by decide)
        (fun f' hf' => (fieldOk_spec (hok f' hf')).2.1) hcmem
    have hc0 : c ≠ '\x00' := by
      rintro rfl
      exact writeRowBody_not_mem (by decide) (by decide)
        (fun f' hf' => (fieldOk_spec (hok f' hf')).2.2.1) hcmem
    have hrecord := foldl_record (f :: rest) [] (by simp) hok
    rw [hb, List.cons_append, List.foldl_cons] at hrecord
    rw [List.cons_append, List.foldl_cons,
      show processChar initCsvState c = processChar ⟨.startField, [], [], false⟩ c from
        processChar_startRecord_eq [] [] c hcn hcr hc0,
      hrecord]
    simp [processEol]

/-- Unfolding equation for `readRecordsGo` on a cons cell. -/
theorem readRecordsGo_cons (st : CsvState) (line : List Char)
    (rest : List (List Char)) :
    readRecordsGo st (line :: rest) =
      if (processLine st line).err then none
      else if (processLine st line).mode = .startRecord then
        (readRecordsGo initCsvState rest).map
          (fun recs => ((processLine st line).fields).reverse :: recs)
      else readRecordsGo (processLine st line) rest := rfl

/-- The reader recovers every written record from its line sequence. -/
theorem readRecordsGo_lines (rs : List (List (List Char)))
    (h : ∀ r ∈ rs, ∀ f ∈ r, fieldOk f = true) :
    readRecordsGo initCsvState
        (rs.map (fun r => writeRowRecord r ++ ['\n'])) = some rs := by
  induction rs with
  | nil => rfl
  | cons r rest ih =>
    have hr := h r (List.mem_cons_self _ _)
    have hrest := fun r' h' => h r' (List.mem_cons_of_mem _ h')
    rw [List.map_cons, readRecordsGo_cons, processLine_record r hr]
    simp [ih hrest]

/-- Newline translation turns the written file into the flattened
LF-terminated record lines. -/
theorem univNewlines_writeRows (rs : List Row)
    (h : ∀ r ∈ rs, ∀ f ∈ r.map String.data, fieldOk f = true) :
    univNewlines (writeRows rs) =
      ((rs.map (fun r => writeRowRecord (r.map String.data) ++ ['\n']))).flatten := by
  induction rs with
  | nil => rfl
  | cons r rest ih =>
    have hr := h r (List.mem_cons_self _ _)
    have hrest := fun r' h' f hf => h r' (List.mem_cons_of_mem _ h') f hf
    have hclean : '\r' ∉ writeRowRecord (r.map String.data) :=
      writeRowRecord_not_mem (by decide) (by decide)
        (fun f hf => (fieldOk_spec (hr f hf)).1)
    have hw : writeRows (r :: rest) =
        writeRowRecord (r.map String.data) ++ ('\r' :: '\n' :: writeRows rest) := by
      show writeRow (r.map String.data) ++ writeRows rest = _
      unfold writeRow
      rw [List.append_assoc]
      rfl
    rw [hw, univNewlines_clean_append _ hclean, univNewlines_crlf, ih hrest]
    simp

/-- Round trip of `csv.writer` then `csv.reader` on rows whose fields
satisfy `fieldOk`: the file written with QUOTE_MINIMAL re-reads as
exactly the same row sequence. -/
theorem readRows_writeRows (rs : List Row) (h : ∀ r ∈ rs, rowOk r = true) :
    readRows (writeRows rs) = some rs := by
  have hfields : ∀ r ∈ rs, ∀ f ∈ r.map String.data, fieldOk f = true := by
    intro r hr f hf
    obtain ⟨s, hs, rfl⟩ := List.mem_map.mp hf
    have := h r hr
    rw [rowOk, List.all_eq_true] at this
    exact this s hs
  have hnl : ∀ r ∈ rs, '\n' ∉ writeRowRecord (r.map String.data) := by
    intro r hr
    exact writeRowRecord_not_mem (by decide) (by decide)
      (fun f hf => (fieldOk_spec (hfields r hr f hf)).2.1)
  unfold readRows
  rw [univNewlines_writeRows rs hfields]
  have hmap2 : (rs.map (fun r => writeRowRecord (r.map String.data) ++ ['\n'])) =
      ((rs.map (fun r => writeRowRecord (r.map String.data))).map
        (fun b => b ++ ['\n'])) := by
    rw [List.map_map]; rfl
  have hmap3 : (rs.map (fun r => writeRowRecord (r.map String.data) ++ ['\n'])) =
      ((rs.map (fun r => r.map String.data)).map
        (fun r' => writeRowRecord r' ++ ['\n'])) := by
    rw [List.map_map]; rfl
  rw [show splitLines = splitLinesGo [] from rfl, hmap2,
    splitLinesGo_flatten _ (by
      intro b hb
      obtain ⟨r, hr, rfl⟩ := List.mem_map.mp hb
      exact hnl r hr),
    ← hmap2, hmap3,
    readRecordsGo_lines (rs.map (fun r => r.map String.data)) (by
      intro r' hr' f hf
      obtain ⟨r, hr, rfl⟩ := List.mem_map.mp hr'
      exact hfields r hr f hf)]
  simp [List.map_map, Function.comp_def]

/-- C6 counterexample: a classified input whose partition row carries a
field with a leading space and no quote-triggering character.  The writer
leaves the field unquoted, and re-reading with `skipinitialspace=True`
strips the space: the reread sequence differs from the written one. -/
theorem csv_round_trip_counterexample :
    process_midi_events [["1", "0", "Note_on_c", "5", " x"]] =
      .ok ([5], [(5, ["1", "0", "Note_on_c", "5", " x"])]) ∧
    channelPartition 5 [(5, ["1", "0", "Note_on_c", "5", " x"])] =
      [["1", "0", "Note_on_c", "5", " x"]] ∧
    readRows (writeRows (channelPartition 5
        [(5, ["1", "0", "Note_on_c", "5", " x"])])) =
      some [["1", "0", "Note_on_c", "5", "x"]] ∧
    some [["1", "0", "Note_on_c", "5", "x"]] ≠
      some [["1", "0", "Note_on_c", "5", " x"]] :=
  ⟨by rfl, by rfl, by decide, by decide⟩

/-- C6 (amended): for every classified input and every discovered
channel, if every field of the partition's rows is free of CR, LF and
NUL and no field both starts with a space and lacks a delimiter or quote
char, then serializing the partition with the writer and re-parsing with
the reader reproduces exactly the written row sequence. -/
theorem csv_round_trip (rows : List Row) (channels : List Int)
    (events : List (Int × Row)) (c : Int)
    (_hok : process_midi_events rows = .ok (channels, events))
    (_hc : c ∈ channels)
    (hgood : ∀ r ∈ channelPartition c events, rowOk r = true) :
    readRows (writeRows (channelPartition c events)) =
      some (channelPartition c events) :=
  readRows_writeRows _ hgood

/-- C6 witness: a global header row and a channel-1 note row. -/
theorem csv_round_trip_witness :
    process_midi_events
        [["0", "0", "Header", "0", "1", "96"],
          ["1", "0", "Note_on_c", "1", "60", "100"]] =
      .ok ([1], [(-1, ["0", "0", "Header", "0", "1", "96"]),
        (1, ["1", "0", "Note_on_c", "1", "60", "100"])]) ∧
    (1 : Int) ∈ [(1 : Int)] ∧
    (∀ r ∈ channelPartition 1 [(-1, ["0", "0", "Header", "0", "1", "96"]),
        (1, ["1", "0", "Note_on_c", "1", "60", "100"])], rowOk r = true) ∧
    readRows (writeRows (channelPartition 1
        [(-1, ["0", "0", "Header", "0", "1", "96"]),
          (1, ["1", "0", "Note_on_c", "1", "60", "100"])])) =
      some (channelPartition 1 [(-1, ["0", "0", "Header", "0", "1", "96"]),
        (1, ["1", "0", "Note_on_c", "1", "60", "100"])]) :=
  ⟨by rfl, by decide, by decide,
    csv_round_trip
      [["0", "0", "Header", "0", "1", "96"],
        ["1", "0", "Note_on_c", "1", "60", "100"]]
      [1]
      [(-1, ["0", "0", "Header", "0", "1", "96"]),
        (1, ["1", "0", "Note_on_c", "1", "60", "100"])]
      1 (by rfl) (by decide) (by decide)⟩

end SplitMidi
